import Mathlib

/-!
# D-ary max-heap engine: shallow embedding and verification

This file embeds the d-ary max-heap engine of `src/heap.rs` (struct `Heap`
with methods `new`, `insert`, `extract_max`, `change_d`, `print`,
`build_heap`, `heapify_down`, `heapify_up`, `get_parent`, `get_n_son`)
and settles the specification claims about it.

Modelling conventions:
* the Rust backing array `[i32; 1000]` is a `List Int` of length
  `HEAP_MAX_SIZE`; all array reads in the source use indices below the
  physical length, so `List.getD` with an arbitrary default is faithful;
* `i32` values are only compared and moved, never subjected to arithmetic,
  so `Int` models them exactly; `usize` index arithmetic cannot overflow
  (indices stay below `1000` and `d` fits in `u32`), so `Nat` is faithful;
* methods taking `&mut self` and returning `Result` become functions
  returning the final `Heap` paired with an `Except`, so that the state at
  the moment an error is returned is captured;
* Rust's `/` on `usize` panics on a zero divisor, while `Nat` division
  totalises `n / 0 = 0`.  The one division in the source is
  `(idx - 1) / d` in `get_parent`; the predicate
  `get_parent_divides_by_zero` marks exactly the argument pairs on which
  the source would execute a division by zero (and panic), and theorems
  about code paths that reach `get_parent` carry a `1 ≤ d` hypothesis so
  that they only speak where the embedding is faithful.
-/

set_option autoImplicit false
set_option maxRecDepth 16384

namespace DHeap

/-- `HEAP_MAX_SIZE` from `heap.rs`: the physical capacity of the backing
array. -/
def HEAP_MAX_SIZE : Nat := 1000

/-- The `HeapError` enum from `heap.rs`. -/
inductive HeapError where
  | HeapFull
  | EmptyHeap
  | NoSuchParent
  | ParentReachedEnd
  | SonReachedEnd
  | InvalidSonIndex
  deriving DecidableEq, Repr

/-- The `Heap` struct from `heap.rs`: a backing array, the count of live
elements, and the branching factor. -/
structure Heap where
  array : List Int
  size : Nat
  d : Nat
  deriving DecidableEq, Repr

/-- Reading `self.array[i]`.  Every array read in the source happens at an
index below the physical array length, so the `getD` default is never
semantically meaningful. -/
def Heap.get (h : Heap) (i : Nat) : Int :=
  h.array.getD i 0

/-- The live prefix `storage[0 .. size)` of the backing array. -/
def liveList (h : Heap) : List Int :=
  h.array.take h.size

/-- `Heap::get_parent`: the root has no parent (`ParentReachedEnd`);
otherwise the parent index is `(idx - 1) / d`, guarded to lie below
`size` (`NoSuchParent`).  In Rust the division panics when `d == 0`;
see `get_parent_divides_by_zero`. -/
def get_parent (h : Heap) (idx : Nat) : Except HeapError Nat :=
  if idx = 0 then
    .error .ParentReachedEnd
  else
    let parent_idx := (idx - 1) / h.d
    if parent_idx < h.size then .ok parent_idx else .error .NoSuchParent

/-- Exactly the argument pairs on which the source's `get_parent` executes
its division `(idx - 1) / d` with a zero divisor — an integer division by
zero, i.e. a panic, in Rust.  (The division is reached only after the
`idx == 0` early return.) -/
def get_parent_divides_by_zero (h : Heap) (idx : Nat) : Prop :=
  idx ≠ 0 ∧ h.d = 0

instance (h : Heap) (idx : Nat) : Decidable (get_parent_divides_by_zero h idx) := by
  unfold get_parent_divides_by_zero; infer_instance

/-- `Heap::get_n_son`: son slots are numbered `n < d` (`InvalidSonIndex`
otherwise); the n-th son of `idx` sits at `idx * d + n + 1`, guarded to
lie below `size` (`SonReachedEnd`). -/
def get_n_son (h : Heap) (idx : Nat) (n : Nat) : Except HeapError Nat :=
  if n ≥ h.d then
    .error .InvalidSonIndex
  else
    let son_idx := idx * h.d + n + 1
    if son_idx < h.size then .ok son_idx else .error .SonReachedEnd

/-- The `for n_son in 0..self.d` scan of `Heap::heapify_down`, carrying the
`(largest_idx, largest_val)` accumulator over the remaining son numbers:
an existing son strictly larger than the accumulator replaces it,
`SonReachedEnd` is skipped, any other error aborts the scan. -/
def scanSonsFrom (h : Heap) (idx : Nat) :
    List Nat → Nat × Int → Except HeapError (Nat × Int)
  | [], acc => .ok acc
  | n :: ns, acc =>
    match get_n_son h idx n with
    | .ok son_idx =>
      if h.get son_idx > acc.2 then
        scanSonsFrom h idx ns (son_idx, h.get son_idx)
      else
        scanSonsFrom h idx ns acc
    | .error .SonReachedEnd => scanSonsFrom h idx ns acc
    | .error e => .error e

/-- The full son scan of `Heap::heapify_down`, started at
`(idx, array[idx])` over son numbers `0, …, d-1`. -/
def scanSons (h : Heap) (idx : Nat) : Except HeapError (Nat × Int) :=
  scanSonsFrom h idx (List.range h.d) (idx, h.get idx)

theorem get_n_son_ok_bound (h : Heap) (idx n son_idx : Nat)
    (hson : get_n_son h idx n = .ok son_idx) :
    idx < son_idx ∧ son_idx < h.size := by
  simp only [get_n_son] at hson
  split at hson
  · simp at hson
  · rename_i hnd
    split at hson
    · rename_i hs
      injection hson with hson
      subst hson
      have hd1 : 1 ≤ h.d := by omega
      have hmul : idx ≤ idx * h.d := by
        have := Nat.mul_le_mul_left idx hd1
        simpa using this
      exact ⟨Nat.lt_succ_of_le (le_trans hmul (Nat.le_add_right _ n)), hs⟩
    · simp at hson

theorem scanSonsFrom_bound (h : Heap) (idx : Nat) :
    ∀ (ns : List Nat) (acc p : Nat × Int),
      scanSonsFrom h idx ns acc = .ok p →
      (acc.1 = idx ∨ (idx < acc.1 ∧ acc.1 < h.size)) →
      p.1 = idx ∨ (idx < p.1 ∧ p.1 < h.size) := by
  intro ns
  induction ns with
  | nil =>
    intro acc p hp hacc
    simp only [scanSonsFrom] at hp
    cases hp
    exact hacc
  | cons n ns ih =>
    intro acc p hp hacc
    simp only [scanSonsFrom] at hp
    split at hp
    · rename_i son_idx hson
      have hlt := get_n_son_ok_bound h idx n son_idx hson
      split at hp
      · exact ih _ _ hp (Or.inr hlt)
      · exact ih _ _ hp hacc
    · exact ih _ _ hp hacc
    · simp at hp

theorem scanSons_bound (h : Heap) (idx : Nat) (p : Nat × Int)
    (hp : scanSons h idx = .ok p) :
    p.1 = idx ∨ (idx < p.1 ∧ p.1 < h.size) :=
  scanSonsFrom_bound h idx (List.range h.d) (idx, h.get idx) p hp (Or.inl rfl)

/-- `Heap::heapify_down`: scan the sons for the largest value; if a son
strictly exceeds the current holder, swap it up and continue from the
son's position.  (The source tests `largest_idx != idx` and recurses in
the `then` branch; the branches are flipped here so the recursion sits in
the `else`.) -/
def heapify_down (h : Heap) (idx : Nat) : Heap × Except HeapError Unit :=
  match hscan : scanSons h idx with
  | .error e => (h, .error e)
  | .ok (largest_idx, largest_val) =>
    if heq : largest_idx = idx then
      (h, .ok ())
    else
      heapify_down
        { h with array := (h.array.set largest_idx (h.get idx)).set idx largest_val }
        largest_idx
termination_by h.size - idx
decreasing_by
  have hb := scanSons_bound h idx _ hscan
  rcases hb with hb | hb
  · exact absurd hb heq
  · have hb' : idx < largest_idx ∧ largest_idx < h.size := hb
    show h.size - largest_idx < h.size - idx
    omega

/-- `Heap::heapify_up`: compare against the parent; if the parent is
strictly smaller, swap it down and continue from the parent's position;
`ParentReachedEnd` (at the root) terminates successfully. -/
def heapify_up (h : Heap) (idx : Nat) : Heap × Except HeapError Unit :=
  match hp : get_parent h idx with
  | .ok parent_idx =>
    if h.get parent_idx < h.get idx then
      heapify_up
        { h with array := (h.array.set parent_idx (h.get idx)).set idx (h.get parent_idx) }
        parent_idx
    else
      (h, .ok ())
  | .error .ParentReachedEnd => (h, .ok ())
  | .error e => (h, .error e)
termination_by idx
decreasing_by
  simp only [get_parent] at hp
  split at hp
  · simp at hp
  · rename_i h0
    split at hp
    · injection hp with hp
      have h1 : (idx - 1) / h.d ≤ idx - 1 := Nat.div_le_self _ _
      rw [hp] at h1
      show parent_idx < idx
      omega
    · simp at hp

/-- `Heap::insert`: reject with `HeapFull` at capacity (state untouched);
otherwise write the item at position `size`, bump `size`, and sift the new
leaf up.  The returned `Result` is the one from `heapify_up`. -/
def insert (h : Heap) (item : Int) : Heap × Except HeapError Unit :=
  if h.size ≥ HEAP_MAX_SIZE then
    (h, .error .HeapFull)
  else
    let h' : Heap := { h with array := h.array.set h.size item, size := h.size + 1 }
    heapify_up h' (h'.size - 1)

/-- The heap state and index at which a non-full `insert`'s sift-up starts:
the item written at position `size`, `size` bumped, and the index
`self.size - 1` of the freshly appended leaf. -/
def insertSiftState (h : Heap) (item : Int) : Heap × Nat :=
  ({ h with array := h.array.set h.size item, size := h.size + 1 }, h.size)

/-- The two in-place statements `self.array[0] = self.array[self.size - 1];
self.size -= 1;` of `Heap::extract_max`: the last live element moved over
the root, the live count shrunk by one. -/
def shrunk (h : Heap) : Heap :=
  { h with array := h.array.set 0 (h.get (h.size - 1)), size := h.size - 1 }

/-- `Heap::extract_max`: reject with `EmptyHeap` on `size == 0` (state
untouched); otherwise remember `array[0]`, move `array[size-1]` into
position 0, shrink `size` (together: `shrunk`), sift the new root down,
and return the remembered maximum (the `?` operator propagates a
`heapify_down` error together with the state at that point). -/
def extract_max (h : Heap) : Heap × Except HeapError Int :=
  if h.size = 0 then
    (h, .error .EmptyHeap)
  else
    let maxVal := h.get 0
    match heapify_down (shrunk h) 0 with
    | (h'', .ok _) => (h'', .ok maxVal)
    | (h'', .error e) => (h'', .error e)

/-- The loop of `Heap::build_heap` over a list of indices.  The source
unwraps each `heapify_down` result; `heapify_down` never returns an error
(theorem `heapify_down_no_error` below), so taking the heap component is
faithful and the unwrap never panics. -/
def build_heap_go (h : Heap) : List Nat → Heap
  | [] => h
  | i :: is => build_heap_go (heapify_down h i).1 is

/-- `Heap::build_heap`: apply `heapify_down` at indices
`size/2 - 1, …, 1, 0` (the Rust loop is `(0..(self.size / 2)).rev()`). -/
def build_heap (h : Heap) : Heap :=
  build_heap_go h (List.range (h.size / 2)).reverse

/-- `Heap::new`: copy the first `min(len, HEAP_MAX_SIZE)` input values over
a backing array initialised to `-1`, set `size` to the copied count and the
branching factor to `d`, then rebuild. -/
def Heap.new (d : Nat) (slice : List Int) : Heap :=
  let slice_len := min slice.length HEAP_MAX_SIZE
  let arr := slice.take slice_len ++ (List.replicate HEAP_MAX_SIZE (-1 : Int)).drop slice_len
  build_heap { array := arr, size := slice_len, d := d }

/-- `Heap::change_d`: set the branching factor (no validation of the new
value) and rebuild. -/
def change_d (h : Heap) (d : Nat) : Heap :=
  build_heap { h with d := d }

/-- The `while start < size` loop of `Heap::print`, collecting for each
level the list of positions it prints (`array[i]` is printed for each
position `i`).  The loop variable `count` is multiplied by `d` after every
level.  Rust has no fuel: the loop simply runs, and for `d == 0` and
`size ≥ 2` it runs forever; `none` (fuel exhaustion) models
non-termination, and `printLoop_terminates` below shows fuel
`size - start + 1` suffices whenever `1 ≤ count` and `1 ≤ d`. -/
def printLoop (size d : Nat) : Nat → Nat → Nat → Option (List (List Nat))
  | 0, _, _ => none
  | fuel + 1, start, count =>
    if start < size then
      let e := min size (start + count)
      match printLoop size d fuel e (count * d) with
      | some rest => some (List.range' start (e - start) :: rest)
      | none => none
    else
      some []

/-- `Heap::print` as a pure level-by-level view: the groups of positions
printed, level by level, starting from `start = 0`, `count = 1`. -/
def print_levels (h : Heap) : Option (List (List Nat)) :=
  printLoop h.size h.d (h.size + 1) 0 1

/-- The generalized max-heap invariant of the spec's data model: every live
child `c = i*d + n + 1` (`n < d`, `c < size`) of a live index `i` holds a
value no greater than its parent's. -/
def heapInv (h : Heap) : Prop :=
  ∀ i, i < h.size → ∀ n, n < h.d →
    i * h.d + n + 1 < h.size → h.get (i * h.d + n + 1) ≤ h.get i

instance (h : Heap) : Decidable (heapInv h) := by
  unfold heapInv; infer_instance

instance {ε α : Type} [DecidableEq ε] [DecidableEq α] : DecidableEq (Except ε α)
  | .ok a, .ok b => decidable_of_iff (a = b) (by simp)
  | .ok _, .error _ => isFalse (by simp)
  | .error _, .ok _ => isFalse (by simp)
  | .error e, .error f => decidable_of_iff (e = f) (by simp)

/-- Well-formedness of a heap state, as maintained by the Rust type: the
backing array physically has `HEAP_MAX_SIZE` cells and the live count
never exceeds it. -/
def Heap.WF (h : Heap) : Prop :=
  h.array.length = HEAP_MAX_SIZE ∧ h.size ≤ HEAP_MAX_SIZE

instance (h : Heap) : Decidable h.WF := by
  unfold Heap.WF; infer_instance

/-! ## Step (unfolding) lemmas for the recursive sift routines -/

theorem heapify_down_of_scan_error (h : Heap) (idx : Nat) (e : HeapError)
    (hs : scanSons h idx = .error e) :
    heapify_down h idx = (h, .error e) := by
  rw [heapify_down]
  split
  · rename_i e' heq
    rw [hs] at heq
    injection heq with heq
    rw [heq]
  · rename_i l v heq
    rw [hs] at heq
    cases heq

theorem heapify_down_of_scan_self (h : Heap) (idx : Nat) (v : Int)
    (hs : scanSons h idx = .ok (idx, v)) :
    heapify_down h idx = (h, .ok ()) := by
  rw [heapify_down]
  split
  · rename_i e heq
    rw [hs] at heq
    cases heq
  · rename_i l v' heq
    rw [hs] at heq
    injection heq with heq
    injection heq with h1 h2
    subst h1
    simp

theorem heapify_down_of_scan_swap (h : Heap) (idx l : Nat) (v : Int)
    (hs : scanSons h idx = .ok (l, v)) (hne : l ≠ idx) :
    heapify_down h idx
      = heapify_down { h with array := (h.array.set l (h.get idx)).set idx v } l := by
  rw [heapify_down]
  split
  · rename_i e heq
    rw [hs] at heq
    cases heq
  · rename_i l' v' heq
    rw [hs] at heq
    injection heq with heq
    injection heq with h1 h2
    subst h1
    subst h2
    simp [hne]

theorem heapify_up_of_parent_swap (h : Heap) (idx p : Nat)
    (hp : get_parent h idx = .ok p) (hlt : h.get p < h.get idx) :
    heapify_up h idx
      = heapify_up { h with array := (h.array.set p (h.get idx)).set idx (h.get p) } p := by
  rw [heapify_up]
  split
  · rename_i p' heq
    rw [hp] at heq
    injection heq with heq
    subst heq
    simp [hlt]
  · rename_i heq
    rw [hp] at heq
    cases heq
  · rename_i e he heq
    rw [hp] at heq
    cases heq

theorem heapify_up_of_parent_stop (h : Heap) (idx p : Nat)
    (hp : get_parent h idx = .ok p) (hge : ¬ h.get p < h.get idx) :
    heapify_up h idx = (h, .ok ()) := by
  rw [heapify_up]
  split
  · rename_i p' heq
    rw [hp] at heq
    injection heq with heq
    subst heq
    simp [hge]
  · rename_i heq
    rw [hp] at heq
  · rename_i e he heq
    rw [hp] at heq
    cases heq

theorem heapify_up_of_parent_end (h : Heap) (idx : Nat)
    (hp : get_parent h idx = .error .ParentReachedEnd) :
    heapify_up h idx = (h, .ok ()) := by
  rw [heapify_up]
  split
  · rename_i p' heq
    rw [hp] at heq
    cases heq
  · rfl
  · rename_i e he heq
    rw [hp] at heq
    injection heq with heq
    exact absurd heq.symm he

theorem heapify_up_of_parent_error (h : Heap) (idx : Nat) (e : HeapError)
    (hne : e ≠ .ParentReachedEnd) (hp : get_parent h idx = .error e) :
    heapify_up h idx = (h, .error e) := by
  rw [heapify_up]
  split
  · rename_i p' heq
    rw [hp] at heq
    cases heq
  · rename_i heq
    rw [hp] at heq
    injection heq with heq
    exact absurd heq hne
  · rename_i e' he heq
    rw [hp] at heq
    injection heq with heq
    rw [heq]

/-! ## The sift routines never fail on the paths the engine uses -/

theorem scanSonsFrom_no_error (h : Heap) (idx : Nat) :
    ∀ (ns : List Nat) (acc : Nat × Int), (∀ n ∈ ns, n < h.d) →
      ∃ p, scanSonsFrom h idx ns acc = .ok p := by
  intro ns
  induction ns with
  | nil => exact fun acc _ => ⟨acc, rfl⟩
  | cons n ns ih =>
    intro acc hns
    have hn : n < h.d := hns n (List.mem_cons_self n ns)
    have hns' : ∀ m ∈ ns, m < h.d := fun m hm => hns m (List.mem_cons_of_mem n hm)
    simp only [scanSonsFrom]
    split
    · split
      · exact ih _ hns'
      · exact ih _ hns'
    · exact ih acc hns'
    · rename_i e he heq
      exfalso
      simp only [get_n_son] at heq
      split at heq
      · omega
      · split at heq
        · cases heq
        · injection heq with heq
          exact he heq.symm

theorem scanSons_no_error (h : Heap) (idx : Nat) :
    ∃ p, scanSons h idx = .ok p :=
  scanSonsFrom_no_error h idx (List.range h.d) (idx, h.get idx)
    (fun n hn => List.mem_range.mp hn)

theorem heapify_down_no_error (h : Heap) (idx : Nat) :
    (heapify_down h idx).2 = .ok () := by
  induction h, idx using heapify_down.induct with
  | case1 h idx e hscan =>
    obtain ⟨p, hp⟩ := scanSons_no_error h idx
    rw [hp] at hscan
    cases hscan
  | case2 h idx v hscan =>
    rw [heapify_down_of_scan_self h idx v hscan]
  | case3 h idx l v hscan hne ih =>
    rw [heapify_down_of_scan_swap h idx l v hscan hne]
    exact ih

theorem heapify_down_preserves (h : Heap) (idx : Nat) :
    (heapify_down h idx).1.size = h.size ∧ (heapify_down h idx).1.d = h.d ∧
      (heapify_down h idx).1.array.length = h.array.length := by
  induction h, idx using heapify_down.induct with
  | case1 h idx e hscan =>
    rw [heapify_down_of_scan_error h idx e hscan]
    exact ⟨rfl, rfl, rfl⟩
  | case2 h idx v hscan =>
    rw [heapify_down_of_scan_self h idx v hscan]
    exact ⟨rfl, rfl, rfl⟩
  | case3 h idx l v hscan hne ih =>
    rw [heapify_down_of_scan_swap h idx l v hscan hne]
    simpa using ih

theorem get_parent_ok_facts (h : Heap) (idx p : Nat)
    (hp : get_parent h idx = .ok p) :
    idx ≠ 0 ∧ p = (idx - 1) / h.d ∧ p < h.size ∧ p < idx := by
  simp only [get_parent] at hp
  split at hp
  · cases hp
  · rename_i h0
    split at hp
    · rename_i hlt
      injection hp with hp
      subst hp
      have h1 : (idx - 1) / h.d ≤ idx - 1 := Nat.div_le_self _ _
      have h2 : idx - 1 < idx := by omega
      exact ⟨h0, rfl, hlt, lt_of_le_of_lt h1 h2⟩
    · cases hp

theorem heapify_up_no_error (h : Heap) (idx : Nat) (hidx : idx < h.size) :
    (heapify_up h idx).2 = .ok () := by
  induction h, idx using heapify_up.induct with
  | case1 h idx p hp hlt ih =>
    rw [heapify_up_of_parent_swap h idx p hp hlt]
    exact ih (get_parent_ok_facts h idx p hp).2.2.1
  | case2 h idx p hp hge =>
    rw [heapify_up_of_parent_stop h idx p hp hge]
  | case3 h idx hp =>
    rw [heapify_up_of_parent_end h idx hp]
  | case4 h idx e hne hp =>
    exfalso
    simp only [get_parent] at hp
    split at hp
    · injection hp with hp
      exact hne hp.symm
    · rename_i h0
      split at hp
      · cases hp
      · rename_i hlt
        have h1 : (idx - 1) / h.d ≤ idx - 1 := Nat.div_le_self _ _
        have h2 : idx - 1 < idx := by omega
        exact hlt (lt_of_le_of_lt h1 (lt_trans h2 hidx))

/-! ## List helpers: reading, setting and permuting within the live prefix -/

theorem getD_take {α : Type} (l : List α) (d : α) :
    ∀ (s i : Nat), i < s → (l.take s).getD i d = l.getD i d := by
  induction l with
  | nil => intro s i _; simp
  | cons x t ih =>
    intro s i his
    cases s with
    | zero => omega
    | succ s =>
      cases i with
      | zero => simp
      | succ i =>
        simp only [List.take_succ_cons, List.getD_cons_succ]
        exact ih s i (by omega)

theorem take_set {α : Type} (l : List α) (a : α) :
    ∀ (s i : Nat), i < s → (l.set i a).take s = (l.take s).set i a := by
  induction l with
  | nil => intro s i _; simp
  | cons x t ih =>
    intro s i his
    cases s with
    | zero => omega
    | succ s =>
      cases i with
      | zero => simp
      | succ i =>
        simp only [List.set_cons_succ, List.take_succ_cons]
        rw [ih s i (by omega)]

theorem getD_set_ne {α : Type} (a d : α) :
    ∀ (l : List α) (i j : Nat), i ≠ j → (l.set i a).getD j d = l.getD j d := by
  intro l
  induction l with
  | nil => intro i j _; simp
  | cons x t ih =>
    intro i j hne
    cases i with
    | zero =>
      cases j with
      | zero => omega
      | succ j => simp
    | succ i =>
      cases j with
      | zero => simp
      | succ j =>
        simp only [List.set_cons_succ, List.getD_cons_succ]
        exact ih i j (by omega)

theorem getD_cons_set_perm {α : Type} (a d : α) :
    ∀ (l : List α) (i : Nat), i < l.length →
      List.Perm (l.getD i d :: l.set i a) (a :: l) := by
  intro l
  induction l with
  | nil => intro i hi; simp at hi
  | cons x t ih =>
    intro i hi
    cases i with
    | zero => exact List.Perm.swap a x t
    | succ i =>
      simp only [List.getD_cons_succ, List.set_cons_succ]
      have h1 : List.Perm (t.getD i d :: x :: t.set i a) (x :: t.getD i d :: t.set i a) :=
        List.Perm.swap x (t.getD i d) _
      have h2 : List.Perm (x :: t.getD i d :: t.set i a) (x :: a :: t) :=
        List.Perm.cons x (ih i (by simpa using hi))
      have h3 : List.Perm (x :: a :: t) (a :: x :: t) := List.Perm.swap a x t
      exact (h1.trans h2).trans h3

theorem swap_set_perm {α : Type} (d : α) (l : List α) (i j : Nat)
    (hne : i ≠ j) (hi : i < l.length) (hj : j < l.length) :
    List.Perm ((l.set i (l.getD j d)).set j (l.getD i d)) l := by
  have h1 : List.Perm (l.getD i d :: l.set i (l.getD j d)) (l.getD j d :: l) :=
    getD_cons_set_perm (l.getD j d) d l i hi
  have hMj : (l.set i (l.getD j d)).getD j d = l.getD j d :=
    getD_set_ne (l.getD j d) d l i j hne
  have h2 : List.Perm
      ((l.set i (l.getD j d)).getD j d :: (l.set i (l.getD j d)).set j (l.getD i d))
      (l.getD i d :: l.set i (l.getD j d)) :=
    getD_cons_set_perm (l.getD i d) d (l.set i (l.getD j d)) j (by simpa using hj)
  rw [hMj] at h2
  have h3 : List.Perm (l.getD j d :: (l.set i (l.getD j d)).set j (l.getD i d)) (l.getD j d :: l) :=
    h2.trans h1
  exact h3.cons_inv

theorem take_succ_getD {α : Type} (d : α) :
    ∀ (l : List α) (s : Nat), s < l.length →
      l.take (s + 1) = l.take s ++ [l.getD s d] := by
  intro l
  induction l with
  | nil => intro s hs; simp at hs
  | cons x t ih =>
    intro s hs
    cases s with
    | zero => simp
    | succ s =>
      simp only [List.take_succ_cons, List.getD_cons_succ, List.cons_append]
      rw [ih s (by simpa using hs)]

/-! ## The scan result is the value stored at the reported index -/

theorem scanSonsFrom_val (h : Heap) (idx : Nat) :
    ∀ (ns : List Nat) (acc p : Nat × Int),
      scanSonsFrom h idx ns acc = .ok p →
      acc.2 = h.get acc.1 → p.2 = h.get p.1 := by
  intro ns
  induction ns with
  | nil =>
    intro acc p hp hacc
    simp only [scanSonsFrom] at hp
    cases hp
    exact hacc
  | cons n ns ih =>
    intro acc p hp hacc
    simp only [scanSonsFrom] at hp
    split at hp
    · split at hp
      · exact ih _ _ hp rfl
      · exact ih _ _ hp hacc
    · exact ih _ _ hp hacc
    · cases hp

theorem scanSons_val (h : Heap) (idx : Nat) (p : Nat × Int)
    (hp : scanSons h idx = .ok p) : p.2 = h.get p.1 :=
  scanSonsFrom_val h idx (List.range h.d) (idx, h.get idx) p hp rfl

/-! ## The sift routines permute the live prefix -/

theorem heapify_down_liveList (h : Heap) (idx : Nat) :
    h.size ≤ h.array.length → List.Perm (liveList (heapify_down h idx).1) (liveList h) := by
  induction h, idx using heapify_down.induct with
  | case1 h idx e hscan =>
    intro _
    rw [heapify_down_of_scan_error h idx e hscan]
  | case2 h idx v hscan =>
    intro _
    rw [heapify_down_of_scan_self h idx v hscan]
  | case3 h idx l v hscan hne ih =>
    intro hlen
    rw [heapify_down_of_scan_swap h idx l v hscan hne]
    have hb : l = idx ∨ (idx < l ∧ l < h.size) := scanSons_bound h idx _ hscan
    have hv : v = h.get l := scanSons_val h idx _ hscan
    rcases hb with hb | hb
    · exact absurd hb hne
    · have hidx : idx < h.size := lt_trans hb.1 hb.2
      have hswap :
          List.Perm
            (liveList { h with array := (h.array.set l (h.get idx)).set idx v })
            (liveList h) := by
        show List.Perm (((h.array.set l (h.get idx)).set idx v).take h.size)
          (h.array.take h.size)
        rw [hv]
        show List.Perm
          (((h.array.set l (h.array.getD idx 0)).set idx (h.array.getD l 0)).take h.size)
          (h.array.take h.size)
        rw [take_set _ _ h.size idx hidx, take_set _ _ h.size l hb.2,
          ← getD_take h.array 0 h.size idx hidx, ← getD_take h.array 0 h.size l hb.2]
        exact swap_set_perm 0 (h.array.take h.size) l idx (by omega)
          (by rw [List.length_take]; omega) (by rw [List.length_take]; omega)
      have ih' := ih (by simpa using hlen)
      exact ih'.trans hswap

theorem heapify_up_liveList (h : Heap) (idx : Nat) :
    h.size ≤ h.array.length → idx < h.size →
      List.Perm (liveList (heapify_up h idx).1) (liveList h) := by
  induction h, idx using heapify_up.induct with
  | case1 h idx p hp hlt ih =>
    intro hlen hidx
    rw [heapify_up_of_parent_swap h idx p hp hlt]
    obtain ⟨-, -, hps, hpi⟩ := get_parent_ok_facts h idx p hp
    have hswap :
        List.Perm
          (liveList { h with array := (h.array.set p (h.get idx)).set idx (h.get p) })
          (liveList h) := by
      show List.Perm
        (((h.array.set p (h.array.getD idx 0)).set idx (h.array.getD p 0)).take h.size)
        (h.array.take h.size)
      rw [take_set _ _ h.size idx hidx, take_set _ _ h.size p hps,
        ← getD_take h.array 0 h.size idx hidx, ← getD_take h.array 0 h.size p hps]
      exact swap_set_perm 0 (h.array.take h.size) p idx (by omega)
        (by rw [List.length_take]; omega) (by rw [List.length_take]; omega)
    have ih' := ih (by simpa using hlen) (by exact hps)
    exact ih'.trans hswap
  | case2 h idx p hp hge =>
    intro _ _
    rw [heapify_up_of_parent_stop h idx p hp hge]
  | case3 h idx hp =>
    intro _ _
    rw [heapify_up_of_parent_end h idx hp]
  | case4 h idx e hne hp =>
    intro _ _
    rw [heapify_up_of_parent_error h idx e hne hp]

theorem heapify_up_preserves (h : Heap) (idx : Nat) :
    (heapify_up h idx).1.size = h.size ∧ (heapify_up h idx).1.d = h.d ∧
      (heapify_up h idx).1.array.length = h.array.length := by
  induction h, idx using heapify_up.induct with
  | case1 h idx p hp hlt ih =>
    rw [heapify_up_of_parent_swap h idx p hp hlt]
    simpa using ih
  | case2 h idx p hp hge =>
    rw [heapify_up_of_parent_stop h idx p hp hge]
    exact ⟨rfl, rfl, rfl⟩
  | case3 h idx hp =>
    rw [heapify_up_of_parent_end h idx hp]
    exact ⟨rfl, rfl, rfl⟩
  | case4 h idx e hne hp =>
    rw [heapify_up_of_parent_error h idx e hne hp]
    exact ⟨rfl, rfl, rfl⟩

/-! ## Rebuild: size, branching factor and live multiset preservation -/

theorem build_heap_go_preserves (is : List Nat) :
    ∀ (h : Heap), (build_heap_go h is).size = h.size ∧ (build_heap_go h is).d = h.d ∧
      (build_heap_go h is).array.length = h.array.length := by
  induction is with
  | nil => exact fun h => ⟨rfl, rfl, rfl⟩
  | cons i is ih =>
    intro h
    have h1 := heapify_down_preserves h i
    have h2 := ih (heapify_down h i).1
    simp only [build_heap_go]
    exact ⟨h2.1.trans h1.1, h2.2.1.trans h1.2.1, h2.2.2.trans h1.2.2⟩

theorem build_heap_go_liveList (is : List Nat) :
    ∀ (h : Heap), h.size ≤ h.array.length →
      List.Perm (liveList (build_heap_go h is)) (liveList h) := by
  induction is with
  | nil => intro h _; rfl
  | cons i is ih =>
    intro h hlen
    have h1 := heapify_down_preserves h i
    have hlen' : (heapify_down h i).1.size ≤ (heapify_down h i).1.array.length := by
      rw [h1.1, h1.2.2]; exact hlen
    exact (ih (heapify_down h i).1 hlen').trans (heapify_down_liveList h i hlen)

theorem build_heap_preserves (h : Heap) :
    (build_heap h).size = h.size ∧ (build_heap h).d = h.d ∧
      (build_heap h).array.length = h.array.length :=
  build_heap_go_preserves _ h

theorem build_heap_liveList (h : Heap) (hlen : h.size ≤ h.array.length) :
    List.Perm (liveList (build_heap h)) (liveList h) :=
  build_heap_go_liveList _ h hlen

/-! ## Construction and branching-factor change -/

theorem new_WF (d : Nat) (slice : List Int) : (Heap.new d slice).WF := by
  have hmin : min slice.length HEAP_MAX_SIZE ≤ slice.length := Nat.min_le_left _ _
  have hmin2 : min slice.length HEAP_MAX_SIZE ≤ HEAP_MAX_SIZE := Nat.min_le_right _ _
  constructor
  · show (build_heap _).array.length = HEAP_MAX_SIZE
    rw [(build_heap_preserves _).2.2]
    show ((slice.take _) ++ (List.replicate HEAP_MAX_SIZE (-1 : Int)).drop _).length
      = HEAP_MAX_SIZE
    rw [List.length_append, List.length_take, List.length_drop, List.length_replicate]
    omega
  · show (build_heap _).size ≤ HEAP_MAX_SIZE
    rw [(build_heap_preserves _).1]
    exact hmin2

theorem new_size (d : Nat) (slice : List Int) :
    (Heap.new d slice).size = min slice.length HEAP_MAX_SIZE := by
  show (build_heap _).size = _
  rw [(build_heap_preserves _).1]

theorem new_d (d : Nat) (slice : List Int) : (Heap.new d slice).d = d := by
  show (build_heap _).d = _
  rw [(build_heap_preserves _).2.1]

theorem new_liveList (d : Nat) (slice : List Int) :
    List.Perm (liveList (Heap.new d slice)) (slice.take HEAP_MAX_SIZE) := by
  have hmin : min slice.length HEAP_MAX_SIZE ≤ slice.length := Nat.min_le_left _ _
  have key := build_heap_liveList
    { array := (slice.take (min slice.length HEAP_MAX_SIZE)
        ++ (List.replicate HEAP_MAX_SIZE (-1 : Int)).drop (min slice.length HEAP_MAX_SIZE)),
      size := min slice.length HEAP_MAX_SIZE, d := d }
    (by
      show min slice.length HEAP_MAX_SIZE
        ≤ (slice.take (min slice.length HEAP_MAX_SIZE)
          ++ (List.replicate HEAP_MAX_SIZE (-1 : Int)).drop (min slice.length HEAP_MAX_SIZE)).length
      rw [List.length_append, List.length_take, List.length_drop, List.length_replicate]
      omega)
  have hpre : (slice.take (min slice.length HEAP_MAX_SIZE)
      ++ (List.replicate HEAP_MAX_SIZE (-1 : Int)).drop (min slice.length HEAP_MAX_SIZE)).take
        (min slice.length HEAP_MAX_SIZE) = slice.take HEAP_MAX_SIZE := by
    rw [List.take_append_of_le_length (by rw [List.length_take]; omega)]
    rw [List.take_take]
    rw [Nat.min_self]
    rcases Nat.le_total slice.length HEAP_MAX_SIZE with hle | hle
    · rw [Nat.min_eq_left hle, List.take_length, List.take_of_length_le hle]
    · rw [Nat.min_eq_right hle]
  rw [← hpre]
  exact key

theorem change_d_size_d (h : Heap) (newD : Nat) :
    (change_d h newD).size = h.size ∧ (change_d h newD).d = newD ∧
      (change_d h newD).array.length = h.array.length :=
  build_heap_preserves _

theorem change_d_liveList (h : Heap) (newD : Nat) (hlen : h.size ≤ h.array.length) :
    List.Perm (liveList (change_d h newD)) (liveList h) :=
  build_heap_liveList { h with d := newD } hlen

/-! ## Insert and extract: unfolding and consequences -/

theorem insert_full (h : Heap) (item : Int) (hfull : HEAP_MAX_SIZE ≤ h.size) :
    insert h item = (h, .error .HeapFull) := by
  simp only [insert]
  rw [if_pos hfull]

theorem insert_not_full (h : Heap) (item : Int) (hlt : h.size < HEAP_MAX_SIZE) :
    insert h item
      = heapify_up { h with array := h.array.set h.size item, size := h.size + 1 } h.size := by
  simp only [insert]
  rw [if_neg (by omega)]
  simp only [Nat.add_sub_cancel]

theorem extract_max_empty (h : Heap) (h0 : h.size = 0) :
    extract_max h = (h, .error .EmptyHeap) := by
  simp only [extract_max]
  rw [if_pos h0]

theorem extract_max_nonempty (h : Heap) (hpos : 0 < h.size) :
    extract_max h = ((heapify_down (shrunk h) 0).1, .ok (h.get 0)) := by
  simp only [extract_max]
  rw [if_neg (by omega)]
  have hok := heapify_down_no_error (shrunk h) 0
  rcases hd : heapify_down (shrunk h) 0 with ⟨h'', r⟩
  rw [hd] at hok
  simp only at hok
  subst hok
  rfl

/-- The live prefix after the extract shuffle (root overwritten by the last
live element, size shrunk) is a permutation of the tail of the old live
prefix. -/
theorem shrink_live_perm (h : Heap) (hlen : h.size ≤ h.array.length)
    (hpos : 0 < h.size) :
    List.Perm (liveList (shrunk h)) ((liveList h).tail) := by
  show List.Perm ((h.array.set 0 (h.get (h.size - 1))).take (h.size - 1))
    ((h.array.take h.size).tail)
  rcases Nat.lt_or_ge h.size 2 with h1 | h2
  · have hs1 : h.size = 1 := by omega
    rw [hs1]
    rcases hA : h.array with - | ⟨x, t⟩
    · rw [hA, hs1] at hlen
      simp at hlen
    · simp
  · have hlast : h.size - 1 < h.array.length := by omega
    have hA : h.array.take h.size = h.array.take (h.size - 1) ++ [h.get (h.size - 1)] := by
      have h3 := take_succ_getD 0 h.array (h.size - 1) hlast
      have h4 : h.size - 1 + 1 = h.size := by omega
      rw [h4] at h3
      exact h3
    rw [take_set h.array (h.get (h.size - 1)) (h.size - 1) 0 (by omega)]
    have hAlen : 0 < (h.array.take (h.size - 1)).length := by
      rw [List.length_take]; omega
    rcases hAe : h.array.take (h.size - 1) with - | ⟨a0, A⟩
    · rw [hAe] at hAlen; simp at hAlen
    · rw [hA, hAe]
      show List.Perm (h.get (h.size - 1) :: A) (A ++ [h.get (h.size - 1)])
      exact (List.perm_append_singleton _ _).symm

/-! ## Appending at position `size`: the live prefix grows by the item -/

theorem getD_set_self {α : Type} (a d : α) :
    ∀ (l : List α) (i : Nat), i < l.length → (l.set i a).getD i d = a := by
  intro l
  induction l with
  | nil => intro i hi; simp at hi
  | cons x t ih =>
    intro i hi
    cases i with
    | zero => simp
    | succ i =>
      simp only [List.set_cons_succ, List.getD_cons_succ]
      exact ih i (by simpa using hi)

theorem take_set_ge {α : Type} (a : α) :
    ∀ (l : List α) (s i : Nat), s ≤ i → (l.set i a).take s = l.take s := by
  intro l
  induction l with
  | nil => intro s i _; simp
  | cons x t ih =>
    intro s i hsi
    cases i with
    | zero =>
      have : s = 0 := by omega
      subst this
      simp
    | succ i =>
      cases s with
      | zero => simp
      | succ s =>
        simp only [List.set_cons_succ, List.take_succ_cons]
        rw [ih s i (by omega)]

theorem take_succ_set {α : Type} (a d : α) (l : List α) (s : Nat) (hs : s < l.length) :
    (l.set s a).take (s + 1) = l.take s ++ [a] := by
  rw [take_succ_getD d (l.set s a) s (by simpa using hs)]
  rw [take_set_ge a l s s (le_refl s), getD_set_self a d l s hs]

/-! ## The print loop: termination, coverage and level widths -/

theorem printLoop_spec (size d : Nat) (hd : 1 ≤ d) :
    ∀ (fuel start count : Nat), 1 ≤ count → size - start < fuel →
      ∃ L, printLoop size d fuel start count = some L ∧
        L.flatten = List.range' start (size - start) ∧
        (L = [] ↔ size ≤ start) ∧
        (∀ i, i + 1 < L.length → ∀ (hi : i < L.length),
          (L.get ⟨i, hi⟩).length = count * d ^ i) ∧
        (∀ i (hi : i < L.length),
          0 < (L.get ⟨i, hi⟩).length ∧ (L.get ⟨i, hi⟩).length ≤ count * d ^ i) := by
  intro fuel
  induction fuel with
  | zero => intro start count hc hf; omega
  | succ fuel ih =>
    intro start count hc hf
    by_cases hs : start < size
    · have he1 : start + 1 ≤ min size (start + count) := by omega
      have he2 : min size (start + count) ≤ size := Nat.min_le_left _ _
      have he3 : min size (start + count) ≤ start + count := Nat.min_le_right _ _
      obtain ⟨rest, hr, hjoin, hempty, hfull, hbnd⟩ :=
        ih (min size (start + count)) (count * d)
          (by simpa using Nat.mul_le_mul hc hd) (by omega)
      refine ⟨List.range' start (min size (start + count) - start) :: rest, ?_, ?_, ?_, ?_, ?_⟩
      · simp only [printLoop]
        rw [if_pos hs, hr]
      · show List.range' start (min size (start + count) - start) ++ rest.flatten = _
        rw [hjoin]
        have hap := List.range'_append_1 start (min size (start + count) - start)
          (size - min size (start + count))
        rw [show start + (min size (start + count) - start) = min size (start + count)
          by omega] at hap
        rw [show size - min size (start + count) + (min size (start + count) - start)
          = size - start by omega] at hap
        exact hap
      · constructor
        · intro hcon; cases hcon
        · intro hcon; exact absurd hcon (by omega)
      · intro i hi1 hi
        cases i with
        | zero =>
          have hne : rest ≠ [] := by
            intro hcon
            rw [hcon] at hi1; simp at hi1
          have hlt : min size (start + count) < size := by
            rcases Nat.lt_or_ge (min size (start + count)) size with hx | hx
            · exact hx
            · exact absurd (hempty.mpr (by omega)) hne
          have hme : min size (start + count) = start + count := by omega
          show (List.range' start (min size (start + count) - start)).length = count * d ^ 0
          rw [List.length_range', hme, pow_zero, Nat.mul_one, Nat.add_sub_cancel_left]
        | succ i =>
          have hi' : i < rest.length := by simpa using hi
          have hi1' : i + 1 < rest.length := by simpa using hi1
          have hw := hfull i hi1' hi'
          show (rest.get ⟨i, hi'⟩).length = count * d ^ (i + 1)
          rw [hw]
          ring
      · intro i hi
        cases i with
        | zero =>
          constructor
          · show 0 < (List.range' start (min size (start + count) - start)).length
            rw [List.length_range']; omega
          · show (List.range' start (min size (start + count) - start)).length
              ≤ count * d ^ 0
            rw [List.length_range', pow_zero, Nat.mul_one]
            omega
        | succ i =>
          have hi' : i < rest.length := by simpa using hi
          have hw := hbnd i hi'
          constructor
          · show 0 < (rest.get ⟨i, hi'⟩).length
            exact hw.1
          · show (rest.get ⟨i, hi'⟩).length ≤ count * d ^ (i + 1)
            have hmm : count * d ^ (i + 1) = count * d * d ^ i := by ring
            rw [hmm]
            exact hw.2
    · refine ⟨[], ?_, ?_, ?_, ?_, ?_⟩
      · simp only [printLoop]
        rw [if_neg hs]
      · rw [show size - start = 0 by omega]
        rfl
      · simp only [true_iff]
        omega
      · intro i hi1
        simp at hi1
      · intro i hi
        simp at hi

/-! ## The root dominates every live element under the heap invariant -/

theorem heapInv_root_max (h : Heap) (hd : 1 ≤ h.d) (hinv : heapInv h) :
    ∀ j, j < h.size → h.get j ≤ h.get 0 := by
  intro j
  induction j using Nat.strong_induction_on with
  | _ j ih =>
    intro hj
    rcases Nat.eq_zero_or_pos j with h0 | hpos
    · subst h0; exact le_refl _
    · have hpj : (j - 1) / h.d < j :=
        lt_of_le_of_lt (Nat.div_le_self _ _) (by omega)
      have hchild : (j - 1) / h.d * h.d + (j - 1) % h.d + 1 = j := by
        have hdm := Nat.div_add_mod (j - 1) h.d
        calc (j - 1) / h.d * h.d + (j - 1) % h.d + 1
            = h.d * ((j - 1) / h.d) + (j - 1) % h.d + 1 := by rw [Nat.mul_comm]
          _ = (j - 1) + 1 := by rw [hdm]
          _ = j := by omega
      have hmod : (j - 1) % h.d < h.d := Nat.mod_lt _ (by omega)
      have hstep := hinv ((j - 1) / h.d) (lt_trans hpj hj) ((j - 1) % h.d) hmod
        (by rw [hchild]; exact hj)
      rw [hchild] at hstep
      exact le_trans hstep (ih _ hpj (lt_trans hpj hj))

/-! ## Evaluation of the d = 1 construction `Heap::new(1, [0, 0, 1])`

`build_heap` only sifts indices `0 .. size/2 - 1`; for `d = 1` and
`size = 3` that is index `0` alone, although index `1` is also internal
(its child is index `2`).  The scan at index `0` sees only son `1`
(value `0`, not strictly greater than `array[0] = 0`), so nothing moves
and the inversion `array[1] = 0 < array[2] = 1` survives construction. -/

theorem new_d1_eval :
    Heap.new 1 [0, 0, 1]
      = { array := ([0, 0, 1] : List Int) ++ List.replicate 997 (-1), size := 3, d := 1 } := by
  have h1 : Heap.new 1 [0, 0, 1]
      = build_heap { array := ([0, 0, 1] : List Int) ++ List.replicate 997 (-1), size := 3, d := 1 } := rfl
  have h2 : build_heap { array := ([0, 0, 1] : List Int) ++ List.replicate 997 (-1), size := 3, d := 1 }
      = (heapify_down { array := ([0, 0, 1] : List Int) ++ List.replicate 997 (-1), size := 3, d := 1 } 0).1 := rfl
  have h3 : heapify_down { array := ([0, 0, 1] : List Int) ++ List.replicate 997 (-1), size := 3, d := 1 } 0
      = ({ array := ([0, 0, 1] : List Int) ++ List.replicate 997 (-1), size := 3, d := 1 }, .ok ()) :=
    heapify_down_of_scan_self _ 0 0 (by decide)
  rw [h1, h2, h3]

theorem d1_extract_eval1 :
    extract_max (Heap.new 1 [0, 0, 1])
      = (shrunk { array := ([0, 0, 1] : List Int) ++ List.replicate 997 (-1), size := 3, d := 1 }, .ok 0) := by
  rw [new_d1_eval]
  have hstep : heapify_down (shrunk { array := ([0, 0, 1] : List Int) ++ List.replicate 997 (-1), size := 3, d := 1 }) 0
      = (shrunk { array := ([0, 0, 1] : List Int) ++ List.replicate 997 (-1), size := 3, d := 1 }, .ok ()) :=
    heapify_down_of_scan_self _ 0 1 (by decide)
  rw [extract_max_nonempty _ (by decide), hstep]
  rfl

theorem d1_extract_eval2 :
    extract_max (shrunk { array := ([0, 0, 1] : List Int) ++ List.replicate 997 (-1), size := 3, d := 1 })
      = (shrunk (shrunk { array := ([0, 0, 1] : List Int) ++ List.replicate 997 (-1), size := 3, d := 1 }), .ok 1) := by
  have hstep : heapify_down (shrunk (shrunk { array := ([0, 0, 1] : List Int) ++ List.replicate 997 (-1), size := 3, d := 1 })) 0
      = (shrunk (shrunk { array := ([0, 0, 1] : List Int) ++ List.replicate 997 (-1), size := 3, d := 1 }), .ok ()) :=
    heapify_down_of_scan_self _ 0 0 (by decide)
  rw [extract_max_nonempty _ (by decide), hstep]
  rfl

/-! ## The claims -/

/-- C1.  The claim asserts that for every branching factor d ≥ 1 every
successful operation re-establishes the generalized max-heap invariant.
The code violates it at d = 1: `Heap::new(1, [0, 0, 1])` completes
successfully but leaves `storage = [0, 0, 1]` with `storage[1] = 0 <
storage[2] = 1`, where index 2 is the first child of index 1
(`2 = 1*1 + 0 + 1 < size`).  The root cause is `build_heap`'s binary-heap
loop bound `0 .. size/2`, which misses internal nodes when d = 1,
contradicting its own documentation ("all the nodes that aren't
leaves"). -/
theorem c1_construct_d1_invariant_violated :
    (Heap.new 1 [0, 0, 1]).size = 3 ∧ (Heap.new 1 [0, 0, 1]).d = 1 ∧
      ¬ heapInv (Heap.new 1 [0, 0, 1]) := by
  rw [new_d1_eval]
  decide

/-- C2.  `ExtractMax` on an empty heap fails with `EmptyHeap` leaving the
state untouched; on a non-empty heap it returns `storage[0]`, moves the
last live element into position 0, decrements `size`, and sifts the new
root down; under the heap invariant (and d ≥ 1) the returned `storage[0]`
dominates every live element. -/
theorem c2_extract_max_spec (h : Heap) :
    (h.size = 0 → extract_max h = (h, .error .EmptyHeap)) ∧
    (h.WF → 0 < h.size →
      extract_max h = ((heapify_down (shrunk h) 0).1, .ok (h.get 0)) ∧
      (extract_max h).2 = .ok (h.get 0) ∧
      (extract_max h).1.size = h.size - 1 ∧
      List.Perm (liveList (extract_max h).1) ((liveList h).tail) ∧
      (1 ≤ h.d → heapInv h → ∀ j, j < h.size → h.get j ≤ h.get 0)) := by
  constructor
  · exact fun h0 => extract_max_empty h h0
  · intro hwf hpos
    have hlen : h.size ≤ h.array.length := by
      rcases hwf with ⟨hl, hs⟩; omega
    have heq := extract_max_nonempty h hpos
    refine ⟨heq, ?_, ?_, ?_, ?_⟩
    · rw [heq]
    · rw [heq]
      show (heapify_down (shrunk h) 0).1.size = h.size - 1
      rw [(heapify_down_preserves (shrunk h) 0).1]
      rfl
    · rw [heq]
      show List.Perm (liveList (heapify_down (shrunk h) 0).1) ((liveList h).tail)
      have hlen' : (shrunk h).size ≤ (shrunk h).array.length := by
        show h.size - 1 ≤ (h.array.set 0 (h.get (h.size - 1))).length
        rw [List.length_set]
        omega
      exact (heapify_down_liveList (shrunk h) 0 hlen').trans (shrink_live_perm h hlen hpos)
    · exact fun hd hinv => heapInv_root_max h hd hinv

/-- C2 witness: an empty heap rejects extraction with the state unchanged;
on a well-formed two-element heap `[5, 3]` the extraction succeeds,
returns the root, and shrinks the live count to one. -/
theorem c2_extract_max_spec_witness :
    extract_max { array := List.replicate 1000 (0 : Int), size := 0, d := 2 }
      = ({ array := List.replicate 1000 (0 : Int), size := 0, d := 2 }, .error .EmptyHeap) ∧
    (extract_max { array := (5 : Int) :: 3 :: List.replicate 998 0, size := 2, d := 2 }).2
      = .ok 5 ∧
    (extract_max { array := (5 : Int) :: 3 :: List.replicate 998 0, size := 2, d := 2 }).1.size
      = 1 :=
  ⟨(c2_extract_max_spec _).1 rfl,
   ((c2_extract_max_spec _).2 (by decide) (by decide)).2.1,
   ((c2_extract_max_spec _).2 (by decide) (by decide)).2.2.1⟩

/-- C3.  `Insert` at capacity fails with `HeapFull` leaving the state
untouched; below capacity it writes the item at position `size`,
increments `size`, sifts the new leaf up, succeeds, and the live multiset
gains exactly the inserted item. -/
theorem c3_insert_spec (h : Heap) (item : Int) :
    (h.size = HEAP_MAX_SIZE → insert h item = (h, .error .HeapFull)) ∧
    (h.WF → h.size < HEAP_MAX_SIZE →
      insert h item
        = heapify_up { h with array := h.array.set h.size item, size := h.size + 1 } h.size ∧
      (insert h item).2 = .ok () ∧
      (insert h item).1.size = h.size + 1 ∧
      List.Perm (liveList (insert h item).1) (item :: liveList h)) := by
  constructor
  · intro h0
    exact insert_full h item (by omega)
  · intro hwf hlt
    have hlen : h.size < h.array.length := by
      rcases hwf with ⟨hl, -⟩; omega
    have heq := insert_not_full h item hlt
    have hpushlen :
        ({ h with array := h.array.set h.size item, size := h.size + 1 } : Heap).size
          ≤ ({ h with array := h.array.set h.size item, size := h.size + 1 } : Heap).array.length := by
      show h.size + 1 ≤ (h.array.set h.size item).length
      rw [List.length_set]
      omega
    refine ⟨heq, ?_, ?_, ?_⟩
    · rw [heq]
      exact heapify_up_no_error _ h.size (by exact Nat.lt_succ_self h.size)
    · rw [heq]
      rw [(heapify_up_preserves _ h.size).1]
    · rw [heq]
      have h1 := heapify_up_liveList
        { h with array := h.array.set h.size item, size := h.size + 1 } h.size
        hpushlen (Nat.lt_succ_self h.size)
      have h2 : liveList ({ h with array := h.array.set h.size item, size := h.size + 1 } : Heap)
          = liveList h ++ [item] := by
        show (h.array.set h.size item).take (h.size + 1) = h.array.take h.size ++ [item]
        exact take_succ_set item 0 h.array h.size hlen
      rw [h2] at h1
      exact h1.trans (List.perm_append_singleton item (liveList h))

/-- C3 witness: a full heap (size = 1000) rejects insertion with the state
unchanged; a well-formed one-element heap accepts an insert, ends with two
live elements, and reports success. -/
theorem c3_insert_spec_witness :
    insert { array := List.replicate 1000 (0 : Int), size := 1000, d := 2 } 7
      = ({ array := List.replicate 1000 (0 : Int), size := 1000, d := 2 }, .error .HeapFull) ∧
    (insert { array := (5 : Int) :: List.replicate 999 0, size := 1, d := 2 } 7).2 = .ok () ∧
    (insert { array := (5 : Int) :: List.replicate 999 0, size := 1, d := 2 } 7).1.size = 2 :=
  ⟨(c3_insert_spec _ 7).1 rfl,
   ((c3_insert_spec _ 7).2 (by decide) (by decide)).2.1,
   ((c3_insert_spec _ 7).2 (by decide) (by decide)).2.2.1⟩

/-- C4.  The claim asserts that `ChangeBranchingFactor(0)` is rejected and
that the division `(idx - 1) / d` is never executed with `d = 0`.  The
code does neither: `change_d` has no error channel and accepts `d = 0`
(the rebuild happens to execute no division), and the very next `insert`
on the resulting two-element heap starts its sift-up at index 2 of a heap
whose branching factor is 0 — `get_parent` then executes `(2 - 1) / 0`,
an integer division by zero (a panic in Rust). -/
theorem c4_change_d_zero_unguarded :
    (change_d (Heap.new 2 [5, 3]) 0).d = 0 ∧
    (change_d (Heap.new 2 [5, 3]) 0).size = 2 ∧
    insert (change_d (Heap.new 2 [5, 3]) 0) 7
      = heapify_up (insertSiftState (change_d (Heap.new 2 [5, 3]) 0) 7).1
          (insertSiftState (change_d (Heap.new 2 [5, 3]) 0) 7).2 ∧
    get_parent_divides_by_zero (insertSiftState (change_d (Heap.new 2 [5, 3]) 0) 7).1
      (insertSiftState (change_d (Heap.new 2 [5, 3]) 0) 7).2 := by
  have hd0 : (change_d (Heap.new 2 [5, 3]) 0).d = 0 := (change_d_size_d _ 0).2.1
  have hsz : (change_d (Heap.new 2 [5, 3]) 0).size = 2 := by
    rw [(change_d_size_d _ 0).1, new_size]
    decide
  have h2 : (insertSiftState (change_d (Heap.new 2 [5, 3]) 0) 7).2 = 2 := hsz
  refine ⟨hd0, hsz, ?_, ?_, ?_⟩
  · exact insert_not_full _ 7 (by rw [hsz]; decide)
  · rw [h2]; decide
  · exact hd0

/-- C5.  The claim asserts that a heap built with any d ≥ 1 yields its
elements in non-increasing order under repeated `ExtractMax`.  The code
violates it at d = 1: on `Heap::new(1, [0, 0, 1])` (whose construction
leaves the invariant broken, see C1) the first extraction returns 0 and
the second returns 1 — an increasing pair — although both succeed. -/
theorem c5_extraction_order_violated_at_d1 :
    (extract_max (Heap.new 1 [0, 0, 1])).2 = .ok 0 ∧
    (extract_max (extract_max (Heap.new 1 [0, 0, 1])).1).2 = .ok 1 := by
  constructor
  · rw [d1_extract_eval1]
  · rw [d1_extract_eval1]
    show (extract_max (shrunk { array := ([0, 0, 1] : List Int) ++ List.replicate 997 (-1), size := 3, d := 1 })).2 = .ok 1
    rw [d1_extract_eval2]

/-- C6.  `Construct` copies at most `MAX_SIZE` values: for longer inputs
the heap holds exactly the first `MAX_SIZE` input values (as a multiset)
and `size = MAX_SIZE`; for shorter inputs `size` equals the input length
and all values are copied. -/
theorem c6_new_spec (d : Nat) (slice : List Int) :
    (Heap.new d slice).size = min slice.length HEAP_MAX_SIZE ∧
    List.Perm (liveList (Heap.new d slice)) (slice.take HEAP_MAX_SIZE) ∧
    (HEAP_MAX_SIZE < slice.length → (Heap.new d slice).size = HEAP_MAX_SIZE) ∧
    (slice.length ≤ HEAP_MAX_SIZE → (Heap.new d slice).size = slice.length ∧
      List.Perm (liveList (Heap.new d slice)) slice) := by
  refine ⟨new_size d slice, new_liveList d slice, ?_, ?_⟩
  · intro hlong
    rw [new_size]
    omega
  · intro hshort
    constructor
    · rw [new_size]
      omega
    · have := new_liveList d slice
      rw [List.take_of_length_le hshort] at this
      exact this

/-- C6 witness: a 1001-element input is clamped to 1000 live elements; a
3-element input is copied whole (size 3, same multiset). -/
theorem c6_new_spec_witness :
    (Heap.new 2 (List.replicate 1001 (7 : Int))).size = HEAP_MAX_SIZE ∧
    (Heap.new 3 [4, 4, 2]).size = 3 ∧
    List.Perm (liveList (Heap.new 3 [4, 4, 2])) [4, 4, 2] :=
  ⟨(c6_new_spec 2 _).2.2.1 (by decide),
   ((c6_new_spec 3 [4, 4, 2]).2.2.2 (by decide)).1,
   ((c6_new_spec 3 [4, 4, 2]).2.2.2 (by decide)).2⟩

/-- C7.  `ChangeBranchingFactor` leaves `size` unchanged and the live
multiset identical (and preserves well-formedness); only the arrangement
within the live positions may change. -/
theorem c7_change_d_spec (h : Heap) (newD : Nat) (hwf : h.WF) :
    (change_d h newD).size = h.size ∧ (change_d h newD).d = newD ∧
    List.Perm (liveList (change_d h newD)) (liveList h) ∧ (change_d h newD).WF := by
  have hlen : h.size ≤ h.array.length := by
    rcases hwf with ⟨hl, hs⟩; omega
  refine ⟨(change_d_size_d h newD).1, (change_d_size_d h newD).2.1,
    change_d_liveList h newD hlen, ?_, ?_⟩
  · rw [(change_d_size_d h newD).2.2]
    exact hwf.1
  · rw [(change_d_size_d h newD).1]
    exact hwf.2

/-- C7 witness: changing d from 2 to 3 on a well-formed three-element heap
keeps the size and the live multiset. -/
theorem c7_change_d_spec_witness :
    (change_d { array := (3 : Int) :: 1 :: 2 :: List.replicate 997 0, size := 3, d := 2 } 3).size
      = 3 ∧
    (change_d { array := (3 : Int) :: 1 :: 2 :: List.replicate 997 0, size := 3, d := 2 } 3).d
      = 3 ∧
    List.Perm
      (liveList (change_d { array := (3 : Int) :: 1 :: 2 :: List.replicate 997 0, size := 3, d := 2 } 3))
      (liveList { array := (3 : Int) :: 1 :: 2 :: List.replicate 997 0, size := 3, d := 2 }) :=
  ⟨(c7_change_d_spec _ 3 (by decide)).1,
   (c7_change_d_spec _ 3 (by decide)).2.1,
   (c7_change_d_spec _ 3 (by decide)).2.2.1⟩

/-- C8.  Full characterisation of the index queries for d ≥ 1:
`get_parent` fails with `ParentReachedEnd` exactly at the root, with
`NoSuchParent` exactly when `(idx-1)/d` lands at or beyond `size`, and
otherwise returns `(idx-1)/d`; `get_n_son` fails with `InvalidSonIndex`
exactly when `n ≥ d`, with `SonReachedEnd` exactly when `idx*d + n + 1`
lands at or beyond `size`, and otherwise returns `idx*d + n + 1`. -/
theorem c8_parent_son_spec (h : Heap) (idx n : Nat) (hd : 1 ≤ h.d) :
    (get_parent h idx = .error .ParentReachedEnd ↔ idx = 0) ∧
    (get_parent h idx = .error .NoSuchParent ↔ 0 < idx ∧ h.size ≤ (idx - 1) / h.d) ∧
    (∀ p, get_parent h idx = .ok p
      ↔ 0 < idx ∧ (idx - 1) / h.d < h.size ∧ p = (idx - 1) / h.d) ∧
    (get_n_son h idx n = .error .InvalidSonIndex ↔ h.d ≤ n) ∧
    (get_n_son h idx n = .error .SonReachedEnd ↔ n < h.d ∧ h.size ≤ idx * h.d + n + 1) ∧
    (∀ c, get_n_son h idx n = .ok c
      ↔ n < h.d ∧ idx * h.d + n + 1 < h.size ∧ c = idx * h.d + n + 1) := by
  simp only [get_parent, get_n_son]
  refine ⟨?_, ?_, ?_, ?_, ?_, ?_⟩
  · constructor
    · intro he
      by_contra h0
      rw [if_neg h0] at he
      split at he <;> simp at he
    · intro h0
      rw [if_pos h0]
  · constructor
    · intro he
      by_cases h0 : idx = 0
      · rw [if_pos h0] at he
        simp at he
      · rw [if_neg h0] at he
        split at he
        · simp at he
        · rename_i hlt
          exact ⟨Nat.pos_of_ne_zero h0, Nat.le_of_not_lt hlt⟩
    · rintro ⟨h0, hge⟩
      rw [if_neg (by omega), if_neg (Nat.not_lt.mpr hge)]
  · intro p
    constructor
    · intro he
      by_cases h0 : idx = 0
      · rw [if_pos h0] at he
        simp at he
      · rw [if_neg h0] at he
        split at he
        · rename_i hlt
          injection he with he
          exact ⟨Nat.pos_of_ne_zero h0, hlt, he.symm⟩
        · simp at he
    · rintro ⟨h0, hlt, hp⟩
      rw [if_neg (by omega), if_pos hlt, hp]
  · constructor
    · intro he
      by_cases hn : n ≥ h.d
      · exact hn
      · rw [if_neg hn] at he
        split at he <;> simp at he
    · intro hn
      rw [if_pos hn]
  · constructor
    · intro he
      by_cases hn : n ≥ h.d
      · rw [if_pos hn] at he
        simp at he
      · rw [if_neg hn] at he
        split at he
        · simp at he
        · rename_i hlt
          exact ⟨Nat.lt_of_not_ge hn, Nat.le_of_not_lt hlt⟩
    · rintro ⟨hn, hge⟩
      rw [if_neg (Nat.not_le.mpr hn), if_neg (Nat.not_lt.mpr hge)]
  · intro c
    constructor
    · intro he
      by_cases hn : n ≥ h.d
      · rw [if_pos hn] at he
        simp at he
      · rw [if_neg hn] at he
        split at he
        · rename_i hlt
          injection he with he
          exact ⟨Nat.lt_of_not_ge hn, hlt, he.symm⟩
        · simp at he
    · rintro ⟨hn, hlt, hc⟩
      rw [if_neg (Nat.not_le.mpr hn), if_pos hlt, hc]

/-- C8 witness (spec scenarios 6 and 7): on a d = 2 heap of three
elements, `ParentOf(0)` fails with `ParentReachedEnd`, `ParentOf(1)`
returns 0, and `NthChildOf(0, 2)` fails with `InvalidSonIndex`. -/
theorem c8_parent_son_spec_witness :
    get_parent { array := (9 : Int) :: 5 :: 3 :: List.replicate 997 0, size := 3, d := 2 } 0
      = .error .ParentReachedEnd ∧
    get_parent { array := (9 : Int) :: 5 :: 3 :: List.replicate 997 0, size := 3, d := 2 } 1
      = .ok 0 ∧
    get_n_son { array := (9 : Int) :: 5 :: 3 :: List.replicate 997 0, size := 3, d := 2 } 0 2
      = .error .InvalidSonIndex :=
  ⟨(c8_parent_son_spec { array := (9 : Int) :: 5 :: 3 :: List.replicate 997 0, size := 3, d := 2 } 0 0 (by decide)).1.mpr rfl,
   ((c8_parent_son_spec { array := (9 : Int) :: 5 :: 3 :: List.replicate 997 0, size := 3, d := 2 } 1 0 (by decide)).2.2.1 0).mpr (by decide),
   (c8_parent_son_spec { array := (9 : Int) :: 5 :: 3 :: List.replicate 997 0, size := 3, d := 2 } 0 2 (by decide)).2.2.2.1.mpr (by decide)⟩

/-- C9.  The level-by-level display: for d ≥ 1 the loop terminates (the
result is `some …`, never the fuel-exhaustion marker), it reports an empty
heap exactly when `size = 0`, the levels cover the live positions
`[0, size)` consecutively and exactly once, every non-final level `i` has
width exactly `d ^ i` (width 1, then ×d per level), and every level is
non-empty and no wider than `d ^ i`.  The function is a pure view: it
takes the heap and returns the grouping, mutating nothing. -/
theorem c9_print_levels_spec (h : Heap) (hd : 1 ≤ h.d) :
    print_levels h = some ((print_levels h).getD []) ∧
    ((print_levels h).getD []).flatten = List.range h.size ∧
    ((print_levels h).getD [] = [] ↔ h.size = 0) ∧
    (∀ i, i + 1 < ((print_levels h).getD []).length →
      ∀ (hi : i < ((print_levels h).getD []).length),
        (((print_levels h).getD []).get ⟨i, hi⟩).length = h.d ^ i) ∧
    (∀ i (hi : i < ((print_levels h).getD []).length),
      0 < (((print_levels h).getD []).get ⟨i, hi⟩).length ∧
        (((print_levels h).getD []).get ⟨i, hi⟩).length ≤ h.d ^ i) := by
  obtain ⟨L, hL, hjoin, hempty, hfull, hbnd⟩ :=
    printLoop_spec h.size h.d hd (h.size + 1) 0 1 (le_refl 1) (by omega)
  have hPL : print_levels h = some L := hL
  rw [hPL]
  simp only [Option.getD_some]
  refine ⟨trivial, ?_, ?_, ?_, ?_⟩
  · rw [hjoin, Nat.sub_zero, List.range_eq_range']
  · rw [hempty]
    omega
  · intro i hi1 hi
    rw [hfull i hi1 hi, one_mul]
  · intro i hi
    have hb := hbnd i hi
    rw [one_mul] at hb
    exact hb

/-- C9 witness: a four-element d = 2 heap is displayed as levels
`[0]`, `[1, 2]`, `[3]` — widths 1, 2, then the truncated last level. -/
theorem c9_print_levels_spec_witness :
    print_levels { array := (9 : Int) :: 5 :: 3 :: 1 :: List.replicate 996 0, size := 4, d := 2 }
      = some [[0], [1, 2], [3]] :=
  ((c9_print_levels_spec _ (by decide)).1).trans (by decide)

/-- C10.  For d ≥ 1 the internal error branches are unreachable on live
indices: `heapify_down` on a live index never errors (so `build_heap`'s
unwrap never panics), `heapify_up` on a live index never errors (so a
below-capacity `insert` returns `Ok`), and `extract_max` on a non-empty
heap returns `Ok` with the root value. -/
theorem c10_sift_no_error_spec (h : Heap) (idx : Nat) (item : Int) (hd : 1 ≤ h.d) :
    (idx < h.size → (heapify_down h idx).2 = .ok ()) ∧
    (idx < h.size → (heapify_up h idx).2 = .ok ()) ∧
    (0 < h.size → (extract_max h).2 = .ok (h.get 0)) ∧
    (h.size < HEAP_MAX_SIZE → (insert h item).2 = .ok ()) := by
  refine ⟨?_, ?_, ?_, ?_⟩
  · intro _
    exact heapify_down_no_error h idx
  · intro hidx
    exact heapify_up_no_error h idx hidx
  · intro hpos
    rw [extract_max_nonempty h hpos]
  · intro hlt
    rw [insert_not_full h item hlt]
    exact heapify_up_no_error _ h.size (Nat.lt_succ_self h.size)

/-- C10 witness: on a well-formed three-element d = 2 heap, sift-down and
sift-up at live index 1 succeed, extraction succeeds returning the root,
and an insert succeeds. -/
theorem c10_sift_no_error_spec_witness :
    (heapify_down { array := (9 : Int) :: 5 :: 3 :: List.replicate 997 0, size := 3, d := 2 } 1).2
      = .ok () ∧
    (heapify_up { array := (9 : Int) :: 5 :: 3 :: List.replicate 997 0, size := 3, d := 2 } 1).2
      = .ok () ∧
    (extract_max { array := (9 : Int) :: 5 :: 3 :: List.replicate 997 0, size := 3, d := 2 }).2
      = .ok 9 ∧
    (insert { array := (9 : Int) :: 5 :: 3 :: List.replicate 997 0, size := 3, d := 2 } 7).2
      = .ok () :=
  ⟨(c10_sift_no_error_spec _ 1 7 (by decide)).1 (by decide),
   (c10_sift_no_error_spec _ 1 7 (by decide)).2.1 (by decide),
   (c10_sift_no_error_spec _ 1 7 (by decide)).2.2.1 (by decide),
   (c10_sift_no_error_spec _ 1 7 (by decide)).2.2.2 (by decide)⟩

end DHeap
